import Mathlib

/-!
Shallow embedding of the `arc-interner` crate (`src/lib.rs`), a global pool of
interned values built on `Arc` and a `DashMap` keyed by `Arc<T>`.

The heap is made explicit: every `Arc` allocation that is still alive is an
`ArcAlloc` record carrying its identity, its value, its strong reference
count, and whether the per-type `DashMap` (`Container<T> = DashMap<Arc<T>, ()>`)
currently holds its own clone of this `Arc` as a key.  The per-type map's
contents are exactly the allocations with `inStore = true`.  `Eq`/`Hash` on the
map's `Arc<T>` keys delegate to the stored value, so map lookups compare
values; `Arc::ptr_eq` compares allocation identities.
-/

namespace ArcInterner

/-- One live `Arc<T>` allocation: its identity (the address), the stored
value, its strong reference count, and whether the interning map currently
holds its own clone of this `Arc` as a key. -/
structure ArcAlloc (T : Type) where
  id : Nat
  val : T
  strong : Nat
  inStore : Bool
  deriving DecidableEq

/-- A clone of a shared `Arc<T>`: which allocation it points to, and the value
stored there.  The strong count lives in the allocation record. -/
structure Arc (T : Type) where
  id : Nat
  val : T
  deriving DecidableEq

/-- The handle type `ArcIntern<T> { arc: Arc<T> }` (src/lib.rs lines 78-81). -/
structure ArcIntern (T : Type) where
  arc : Arc T
  deriving DecidableEq

/-- The process state visible to one element type `T`: the identity used for
the next `Arc` allocation, and every live allocation with its bookkeeping. -/
structure InternState (T : Type) where
  nextId : Nat
  owners : List (ArcAlloc T)
  deriving DecidableEq

variable {T : Type} [DecidableEq T]

/-- The state before any intern call for this type: the `Container<T>` for `T`
is absent or empty, and no allocation of `T` is alive. -/
def emptyState : InternState T := ⟨0, []⟩

/-- DashMap key lookup (`m.get` / `m.entry`) on `Arc<T>` keys: `Eq` on
`Arc<T>` delegates to the stored value, so the lookup returns the first
allocation held by the map whose value equals `v`. -/
def findStore : List (ArcAlloc T) → T → Option (ArcAlloc T)
  | [], _ => none
  | o :: rest, v =>
    if o.inStore = true ∧ o.val = v then some o else findStore rest v

/-- The effect of `b.key().clone()` (src/lib.rs line 111): one more strong
reference on allocation `i`. -/
def bumpStrong : List (ArcAlloc T) → Nat → List (ArcAlloc T)
  | [], _ => []
  | o :: rest, i =>
    if o.id = i then { o with strong := o.strong + 1 } :: rest
    else o :: bumpStrong rest i

/-- `ArcIntern::new` (src/lib.rs lines 95-113).  The map for `T` is resolved
through the type registry (created empty on first use), then
`m.entry(Arc::new(val)).or_insert(())` either finds the existing key whose
value equals `val` — the freshly made `Arc` is dropped again — or inserts the
fresh `Arc` with strong count 1; `b.key().clone()` then hands the caller one
more strong reference (so a fresh insertion ends at strong count 2). -/
def ArcIntern.new (val : T) (s : InternState T) : ArcIntern T × InternState T :=
  match findStore s.owners val with
  | some o => (⟨⟨o.id, o.val⟩⟩, { s with owners := bumpStrong s.owners o.id })
  | none =>
      (⟨⟨s.nextId, val⟩⟩,
        { nextId := s.nextId + 1,
          owners := s.owners ++ [⟨s.nextId, val, 2, true⟩] })

/-- `ArcIntern::num_objects_interned` (src/lib.rs lines 116-124): the length
of the `Container<T>` map, i.e. how many allocations the map holds. -/
def ArcIntern.numObjectsInterned (s : InternState T) : Nat :=
  (s.owners.filter (fun o => o.inStore)).length

/-- Lookup of a live allocation by identity. -/
def findById : List (ArcAlloc T) → Nat → Option (ArcAlloc T)
  | [], _ => none
  | o :: rest, i => if o.id = i then some o else findById rest i

/-- `Arc::strong_count` of the allocation a handle points to (0 once the
allocation has been freed). -/
def strongCount (s : InternState T) (i : Nat) : Nat :=
  match findById s.owners i with
  | some o => o.strong
  | none => 0

/-- `ArcIntern::refcount` (src/lib.rs lines 126-130):
`Arc::strong_count(&self.arc) - 1`, discounting the map's own reference. -/
def ArcIntern.refcount (s : InternState T) (h : ArcIntern T) : Nat :=
  strongCount s h.arc.id - 1

/-- The `m.remove_if(&self.arc, |k, _| Arc::strong_count(k) == 2)` step of
`Drop::drop` (src/lib.rs lines 148-153): the map locates the key equal (by
value) to `self.arc`; if that key's strong count is exactly 2 the entry is
removed, which releases the map's own reference; otherwise the entry is
left untouched. -/
def removeIfStrongTwo : List (ArcAlloc T) → T → List (ArcAlloc T)
  | [], _ => []
  | o :: rest, v =>
    if o.inStore = true ∧ o.val = v then
      (if o.strong = 2 then { o with inStore := false, strong := 1 } :: rest
       else o :: rest)
    else o :: removeIfStrongTwo rest v

/-- Releasing one strong reference on allocation `i`: the count drops by one,
and the allocation is deallocated when it reaches 0. -/
def decStrong : List (ArcAlloc T) → Nat → List (ArcAlloc T)
  | [], _ => []
  | o :: rest, i =>
    if o.id = i then
      (if o.strong ≤ 1 then rest else { o with strong := o.strong - 1 } :: rest)
    else o :: decStrong rest i

/-- `Drop for ArcIntern` (src/lib.rs lines 141-156): first `remove_if` runs
against the map, then the handle's own field `self.arc` is dropped, releasing
this handle's strong reference. -/
def ArcIntern.drop (s : InternState T) (h : ArcIntern T) : InternState T :=
  { s with owners := decStrong (removeIfStrongTwo s.owners h.arc.val) h.arc.id }

/-- `AsRef`/`Borrow`/`Deref` (src/lib.rs lines 158-173): read access to the
canonical value the handle's `Arc` points to. -/
def ArcIntern.asRef (h : ArcIntern T) : T := h.arc.val

/-- `Hash for ArcIntern` (src/lib.rs lines 197-202): the state is fed
`self.arc.deref()`, i.e. the wrapped value itself is hashed.  The hasher is
abstracted as a function from values to machine words. -/
def ArcIntern.hashWith (hashT : T → Nat) (h : ArcIntern T) : Nat :=
  hashT h.asRef

/-- `PartialEq for ArcIntern` (src/lib.rs lines 205-209):
`Arc::ptr_eq(&self.arc, &other.arc)`, comparing allocation identities. -/
def ArcIntern.eq (a b : ArcIntern T) : Bool := a.arc.id == b.arc.id

/-- `Ord for ArcIntern` (src/lib.rs lines 230-234): `self.as_ref().cmp(other)`
with `other` auto-dereferenced, i.e. the wrapped values are compared. -/
def ArcIntern.cmp [Ord T] (a b : ArcIntern T) : Ordering :=
  compare a.asRef b.asRef

/-- `Serialize for ArcIntern` (src/lib.rs lines 236-240): serialization
delegates to the wrapped value, so the data written is exactly the value. -/
def ArcIntern.serialize (h : ArcIntern T) : T := h.asRef

/-- `Deserialize for ArcIntern` (src/lib.rs lines 242-248): the value read is
interned with `Self::new`. -/
def ArcIntern.deserialize (v : T) (s : InternState T) : ArcIntern T × InternState T :=
  ArcIntern.new v s

/-- Interning a list of values in order, collecting the handles. -/
def internList (s : InternState T) : List T → List (ArcIntern T) × InternState T
  | [] => ([], s)
  | v :: vs =>
      let p := ArcIntern.new v s
      let q := internList p.2 vs
      (p.1 :: q.1, q.2)

/-- Dropping a list of handles in order. -/
def dropList (s : InternState T) : List (ArcIntern T) → InternState T
  | [] => s
  | h :: hs => dropList (ArcIntern.drop s h) hs

/-- Insertion step of a stable ascending sort using the handles' `Ord`. -/
def insertSorted [Ord T] (h : ArcIntern T) : List (ArcIntern T) → List (ArcIntern T)
  | [] => [h]
  | x :: xs =>
      if ArcIntern.cmp h x = Ordering.gt then x :: insertSorted h xs
      else h :: x :: xs

/-- `Vec::sort` on a list of handles, modelled as insertion sort driven by the
handles' own `Ord` implementation. -/
def sortHandles [Ord T] (l : List (ArcIntern T)) : List (ArcIntern T) :=
  l.foldr insertSorted []

/-- Does the `Container<T>` map currently hold an entry for value `v`? -/
def storeHas (s : InternState T) (v : T) : Bool :=
  (findStore s.owners v).isSome

/-- The allocations produced by interning the values of `vs`, each fresh
(strong count 2: map + caller), with identities from `n` upward. -/
def freshOwners (n : Nat) : List T → List (ArcAlloc T)
  | [] => []
  | v :: vs => ⟨n, v, 2, true⟩ :: freshOwners (n + 1) vs

/-- The handles produced by interning the values of `vs` fresh, with
identities from `n` upward. -/
def freshHandles (n : Nat) : List T → List (ArcIntern T)
  | [] => []
  | v :: vs => ⟨⟨n, v⟩⟩ :: freshHandles (n + 1) vs

/-- The reachable-state invariant of the pool: allocation identities are
below the allocator's next identity and pairwise distinct; the map holds at
most one allocation per distinct value; and the map never holds an allocation
whose only remaining strong reference is the map's own (an allocation held by
the map always has its map reference plus at least one client reference). -/
@[reducible] def Valid (s : InternState T) : Prop :=
  (∀ o ∈ s.owners, o.id < s.nextId) ∧
  s.owners.Pairwise (fun a b => a.id ≠ b.id) ∧
  (∀ o1 ∈ s.owners, ∀ o2 ∈ s.owners,
    o1.inStore = true → o2.inStore = true → o1.val = o2.val → o1.id = o2.id) ∧
  (∀ o ∈ s.owners, o.inStore = true → 2 ≤ o.strong)

/-- A handle a client currently holds: its allocation is alive, held by the
map, and stores the handle's value. -/
@[reducible] def LiveHandle (s : InternState T) (h : ArcIntern T) : Prop :=
  ∃ o ∈ s.owners, o.id = h.arc.id ∧ o.inStore = true ∧ o.val = h.arc.val

/-- The part of an allocation that map lookups and identity tests can see:
identity, value, and store membership (everything except the strong count). -/
def shape (o : ArcAlloc T) : Nat × T × Bool := (o.id, o.val, o.inStore)

theorem findStore_mem {l : List (ArcAlloc T)} {v : T} {o : ArcAlloc T}
    (hf : findStore l v = some o) : o ∈ l ∧ o.inStore = true ∧ o.val = v := by
  induction l with
  | nil => simp [findStore] at hf
  | cons x rest ih =>
      by_cases hx : x.inStore = true ∧ x.val = v
      · simp only [findStore, if_pos hx, Option.some.injEq] at hf
        exact ⟨by simp [← hf], hf ▸ hx.1, hf ▸ hx.2⟩
      · simp only [findStore, if_neg hx] at hf
        obtain ⟨hm, h1, h2⟩ := ih hf
        exact ⟨List.mem_cons_of_mem _ hm, h1, h2⟩

theorem findStore_eq_none_of {l : List (ArcAlloc T)} {v : T}
    (hno : ∀ x ∈ l, x.inStore = true → x.val ≠ v) : findStore l v = none := by
  induction l with
  | nil => rfl
  | cons x rest ih =>
      have hx : ¬(x.inStore = true ∧ x.val = v) := by
        rintro ⟨h1, h2⟩
        exact hno x (List.mem_cons_self x rest) h1 h2
      simp only [findStore, if_neg hx]
      exact ih (fun y hy => hno y (List.mem_cons_of_mem _ hy))

theorem eq_none_findStore {l : List (ArcAlloc T)} {v : T}
    (hf : findStore l v = none) : ∀ x ∈ l, x.inStore = true → x.val ≠ v := by
  induction l with
  | nil => intro x hx; simp at hx
  | cons x rest ih =>
      by_cases hx : x.inStore = true ∧ x.val = v
      · simp [findStore, if_pos hx] at hf
      · simp only [findStore, if_neg hx] at hf
        intro y hy h1 h2
        rcases List.mem_cons.mp hy with rfl | hy'
        · exact hx ⟨h1, h2⟩
        · exact ih hf y hy' h1 h2

theorem findStore_decomp {l : List (ArcAlloc T)} {v : T} {o : ArcAlloc T}
    (hf : findStore l v = some o) :
    ∃ l1 l2, l = l1 ++ o :: l2 ∧ ∀ x ∈ l1, ¬(x.inStore = true ∧ x.val = v) := by
  induction l with
  | nil => simp [findStore] at hf
  | cons x rest ih =>
      by_cases hx : x.inStore = true ∧ x.val = v
      · simp only [findStore, if_pos hx, Option.some.injEq] at hf
        exact ⟨[], rest, by simp [hf], by simp⟩
      · simp only [findStore, if_neg hx] at hf
        obtain ⟨l1, l2, hl, hno⟩ := ih hf
        refine ⟨x :: l1, l2, by simp [hl], ?_⟩
        intro y hy
        rcases List.mem_cons.mp hy with rfl | hy'
        · exact hx
        · exact hno y hy'

theorem findStore_append_of_none {l1 l2 : List (ArcAlloc T)} {v : T}
    (hno : ∀ x ∈ l1, ¬(x.inStore = true ∧ x.val = v)) :
    findStore (l1 ++ l2) v = findStore l2 v := by
  induction l1 with
  | nil => rfl
  | cons x rest ih =>
      simp only [List.cons_append, findStore,
        if_neg (hno x (List.mem_cons_self x rest))]
      exact ih (fun y hy => hno y (List.mem_cons_of_mem _ hy))

theorem findStore_isSome_of {l : List (ArcAlloc T)} {v : T} {o : ArcAlloc T}
    (ho : o ∈ l) (hin : o.inStore = true) (hv : o.val = v) :
    ∃ x, findStore l v = some x := by
  induction l with
  | nil => simp at ho
  | cons x rest ih =>
      by_cases hx : x.inStore = true ∧ x.val = v
      · exact ⟨x, by simp [findStore, if_pos hx]⟩
      · rcases List.mem_cons.mp ho with rfl | ho'
        · exact absurd ⟨hin, hv⟩ hx
        · obtain ⟨y, hy⟩ := ih ho'
          exact ⟨y, by simp [findStore, if_neg hx, hy]⟩

theorem removeIfStrongTwo_of_decomp {l1 l2 : List (ArcAlloc T)} {v : T}
    {o : ArcAlloc T} (hno : ∀ x ∈ l1, ¬(x.inStore = true ∧ x.val = v))
    (hin : o.inStore = true) (hv : o.val = v) :
    removeIfStrongTwo (l1 ++ o :: l2) v =
      l1 ++ (if o.strong = 2 then { o with inStore := false, strong := 1 }
             else o) :: l2 := by
  induction l1 with
  | nil =>
      have hcond : o.inStore = true ∧ o.val = v := ⟨hin, hv⟩
      simp only [List.nil_append, removeIfStrongTwo, if_pos hcond]
      by_cases h2 : o.strong = 2 <;> simp [h2]
  | cons x rest ih =>
      simp only [List.cons_append, removeIfStrongTwo,
        if_neg (hno x (List.mem_cons_self x rest)), List.append_eq]
      rw [ih (fun y hy => hno y (List.mem_cons_of_mem _ hy))]

theorem decStrong_of_decomp {l1 l2 : List (ArcAlloc T)} {i : Nat}
    {o : ArcAlloc T} (hno : ∀ x ∈ l1, x.id ≠ i) (hid : o.id = i) :
    decStrong (l1 ++ o :: l2) i =
      if o.strong ≤ 1 then l1 ++ l2
      else l1 ++ { o with strong := o.strong - 1 } :: l2 := by
  induction l1 with
  | nil =>
      simp only [List.nil_append, decStrong, if_pos hid]
  | cons x rest ih =>
      simp only [List.cons_append, decStrong,
        if_neg (hno x (List.mem_cons_self x rest)), List.append_eq]
      rw [ih (fun y hy => hno y (List.mem_cons_of_mem _ hy))]
      by_cases h1 : o.strong ≤ 1 <;> simp [h1]

theorem bumpStrong_of_decomp {l1 l2 : List (ArcAlloc T)} {i : Nat}
    {o : ArcAlloc T} (hno : ∀ x ∈ l1, x.id ≠ i) (hid : o.id = i) :
    bumpStrong (l1 ++ o :: l2) i = l1 ++ { o with strong := o.strong + 1 } :: l2 := by
  induction l1 with
  | nil => simp only [List.nil_append, bumpStrong, if_pos hid]
  | cons x rest ih =>
      simp only [List.cons_append, bumpStrong,
        if_neg (hno x (List.mem_cons_self x rest)), List.append_eq]
      rw [ih (fun y hy => hno y (List.mem_cons_of_mem _ hy))]

theorem findById_of_decomp {l1 l2 : List (ArcAlloc T)} {i : Nat}
    {o : ArcAlloc T} (hno : ∀ x ∈ l1, x.id ≠ i) (hid : o.id = i) :
    findById (l1 ++ o :: l2) i = some o := by
  induction l1 with
  | nil => simp [findById, if_pos hid]
  | cons x rest ih =>
      simp only [List.cons_append, findById,
        if_neg (hno x (List.mem_cons_self x rest))]
      exact ih (fun y hy => hno y (List.mem_cons_of_mem _ hy))

theorem findById_eq_none_of {l : List (ArcAlloc T)} {i : Nat}
    (hno : ∀ x ∈ l, x.id ≠ i) : findById l i = none := by
  induction l with
  | nil => rfl
  | cons x rest ih =>
      simp only [findById, if_neg (hno x (List.mem_cons_self x rest))]
      exact ih (fun y hy => hno y (List.mem_cons_of_mem _ hy))

theorem pairwise_ne_mem_eq {l : List (ArcAlloc T)} {a b : ArcAlloc T}
    (hp : l.Pairwise (fun x y => x.id ≠ y.id)) (ha : a ∈ l) (hb : b ∈ l)
    (hid : a.id = b.id) : a = b := by
  induction l with
  | nil => simp at ha
  | cons x rest ih =>
      rw [List.pairwise_cons] at hp
      rcases List.mem_cons.mp ha with rfl | ha' <;>
        rcases List.mem_cons.mp hb with rfl | hb'
      · rfl
      · exact absurd hid (hp.1 b hb')
      · exact absurd hid.symm (hp.1 a ha')
      · exact ih hp.2 ha' hb'

theorem live_decomp {s : InternState T} {h : ArcIntern T} {o : ArcAlloc T}
    (hs : Valid s) (ho : o ∈ s.owners) (hid : o.id = h.arc.id)
    (hin : o.inStore = true) (hv : o.val = h.arc.val) :
    ∃ l1 l2, s.owners = l1 ++ o :: l2
      ∧ (∀ x ∈ l1, x.id ≠ o.id ∧ (x.inStore = true → x.val ≠ h.arc.val))
      ∧ (∀ x ∈ l2, x.id ≠ o.id ∧ (x.inStore = true → x.val ≠ h.arc.val)) := by
  obtain ⟨hfresh, hpw, huniq, hstr⟩ := hs
  obtain ⟨x, hx⟩ := findStore_isSome_of ho hin hv
  obtain ⟨hxm, hxin, hxv⟩ := findStore_mem hx
  have hxo : x = o :=
    pairwise_ne_mem_eq hpw hxm ho (huniq x hxm o ho hxin hin (by rw [hxv, hv]))
  subst hxo
  obtain ⟨l1, l2, hl, hno⟩ := findStore_decomp hx
  have hpw2 : (l1 ++ x :: l2).Pairwise (fun a b => a.id ≠ b.id) := hl ▸ hpw
  rw [List.pairwise_append] at hpw2
  obtain ⟨hpw1, hpwc, hcross⟩ := hpw2
  rw [List.pairwise_cons] at hpwc
  refine ⟨l1, l2, hl, ?_, ?_⟩
  · intro y hy
    refine ⟨hcross y hy x (List.mem_cons_self x l2), ?_⟩
    intro hy1 hy2
    exact hno y hy ⟨hy1, hy2⟩
  · intro y hy
    have hym : y ∈ s.owners := by
      rw [hl]; exact List.mem_append_right _ (List.mem_cons_of_mem _ hy)
    have hxm' : x ∈ s.owners := by
      rw [hl]; exact List.mem_append_right _ (List.mem_cons_self x l2)
    refine ⟨fun hyx => (hpwc.1 y hy) hyx.symm, ?_⟩
    intro hy1 hy2
    exact (hpwc.1 y hy) (huniq x hxm' y hym hxin hy1 (by rw [hxv, hy2]))

theorem drop_eq_of_live {s : InternState T} {h : ArcIntern T} {o : ArcAlloc T}
    (hs : Valid s) (ho : o ∈ s.owners) (hid : o.id = h.arc.id)
    (hin : o.inStore = true) (hv : o.val = h.arc.val) :
    ∃ l1 l2, s.owners = l1 ++ o :: l2
      ∧ (∀ x ∈ l1, x.id ≠ o.id ∧ (x.inStore = true → x.val ≠ h.arc.val))
      ∧ (∀ x ∈ l2, x.id ≠ o.id ∧ (x.inStore = true → x.val ≠ h.arc.val))
      ∧ (ArcIntern.drop s h).owners =
          (if o.strong = 2 then l1 ++ l2
           else l1 ++ { o with strong := o.strong - 1 } :: l2) := by
  obtain ⟨l1, l2, hl, h1, h2⟩ := live_decomp hs ho hid hin hv
  refine ⟨l1, l2, hl, h1, h2, ?_⟩
  have hrm : removeIfStrongTwo s.owners h.arc.val =
      l1 ++ (if o.strong = 2 then { o with inStore := false, strong := 1 }
             else o) :: l2 := by
    rw [hl]
    exact removeIfStrongTwo_of_decomp
      (fun x hx hc => (h1 x hx).2 hc.1 hc.2) hin hv
  have hfront : ∀ x ∈ l1, x.id ≠ h.arc.id := by
    intro x hx
    rw [← hid]; exact (h1 x hx).1
  have hdrop : (ArcIntern.drop s h).owners =
      decStrong (removeIfStrongTwo s.owners h.arc.val) h.arc.id := rfl
  by_cases h2s : o.strong = 2
  · rw [hdrop, hrm, if_pos h2s, if_pos h2s,
      decStrong_of_decomp hfront (show ({ o with inStore := false, strong := 1 } : ArcAlloc T).id = h.arc.id from hid),
      if_pos (by norm_num)]
  · have hstr : 2 ≤ o.strong := hs.2.2.2 o ho hin
    rw [hdrop, hrm, if_neg h2s, if_neg h2s,
      decStrong_of_decomp hfront (show o.id = h.arc.id from hid),
      if_neg (by omega)]

theorem valid_middle_replace {n : Nat} {l1 l2 : List (ArcAlloc T)}
    {o o' : ArcAlloc T} (hid : o'.id = o.id) (hval : o'.val = o.val)
    (hstore : o'.inStore = o.inStore) (hstr : o'.inStore = true → 2 ≤ o'.strong)
    (hv : Valid (InternState.mk n (l1 ++ o :: l2))) :
    Valid (InternState.mk n (l1 ++ o' :: l2)) := by
  obtain ⟨hfresh, hpw, huniq, hstr0⟩ := hv
  have hkey : ∀ x ∈ l1 ++ o' :: l2, ∃ y ∈ l1 ++ o :: l2,
      y.id = x.id ∧ y.val = x.val ∧ y.inStore = x.inStore := by
    intro x hx
    rcases List.mem_append.mp hx with hx1 | hx2
    · exact ⟨x, List.mem_append_left _ hx1, rfl, rfl, rfl⟩
    · rcases List.mem_cons.mp hx2 with rfl | hx3
      · exact ⟨o, List.mem_append_right _ (List.mem_cons_self o l2),
          hid.symm, hval.symm, hstore.symm⟩
      · exact ⟨x, List.mem_append_right _ (List.mem_cons_of_mem _ hx3), rfl, rfl, rfl⟩
  refine ⟨?_, ?_, ?_, ?_⟩
  · intro x hx
    obtain ⟨y, hy, hy1, _, _⟩ := hkey x hx
    exact hy1 ▸ hfresh y hy
  · rw [List.pairwise_append] at hpw ⊢
    rw [List.pairwise_cons] at hpw ⊢
    obtain ⟨hp1, ⟨hpo, hp2⟩, hcross⟩ := hpw
    refine ⟨hp1, ⟨?_, hp2⟩, ?_⟩
    · intro b hb; rw [hid]; exact hpo b hb
    · intro a ha b hb
      rcases List.mem_cons.mp hb with rfl | hb'
      · rw [hid]; exact hcross a ha o (List.mem_cons_self o l2)
      · exact hcross a ha b (List.mem_cons_of_mem _ hb')
  · intro o1 ho1 o2 ho2 hin1 hin2 hvv
    obtain ⟨y1, hy1, hy1i, hy1v, hy1s⟩ := hkey o1 ho1
    obtain ⟨y2, hy2, hy2i, hy2v, hy2s⟩ := hkey o2 ho2
    rw [← hy1i, ← hy2i]
    exact huniq y1 hy1 y2 hy2 (hy1s.trans hin1) (hy2s.trans hin2)
      (by rw [hy1v, hy2v, hvv])
  · intro x hx hxin
    rcases List.mem_append.mp hx with hx1 | hx2
    · exact hstr0 x (List.mem_append_left _ hx1) hxin
    · rcases List.mem_cons.mp hx2 with rfl | hx3
      · exact hstr hxin
      · exact hstr0 x (List.mem_append_right _ (List.mem_cons_of_mem _ hx3)) hxin

theorem valid_middle_remove {n : Nat} {l1 l2 : List (ArcAlloc T)}
    {o : ArcAlloc T} (hv : Valid (InternState.mk n (l1 ++ o :: l2))) :
    Valid (InternState.mk n (l1 ++ l2)) := by
  obtain ⟨hfresh, hpw, huniq, hstr⟩ := hv
  have hsub : (l1 ++ l2).Sublist (l1 ++ o :: l2) :=
    (List.sublist_cons_self o l2).append_left l1
  refine ⟨?_, hpw.sublist hsub, ?_, ?_⟩
  · intro x hx; exact hfresh x (hsub.mem hx)
  · intro o1 ho1 o2 ho2
    exact huniq o1 (hsub.mem ho1) o2 (hsub.mem ho2)
  · intro x hx; exact hstr x (hsub.mem hx)

theorem valid_append_fresh {s : InternState T} {v : T}
    (hv : Valid s) (hf : findStore s.owners v = none) :
    Valid (InternState.mk (s.nextId + 1)
      (s.owners ++ [ArcAlloc.mk s.nextId v 2 true])) := by
  obtain ⟨hfresh, hpw, huniq, hstr⟩ := hv
  have hnot := eq_none_findStore hf
  refine ⟨?_, ?_, ?_, ?_⟩
  · intro x hx
    rcases List.mem_append.mp hx with hx1 | hx2
    · exact Nat.lt_trans (hfresh x hx1) (Nat.lt_succ_self _)
    · rw [List.mem_singleton.mp hx2]; exact Nat.lt_succ_self _
  · rw [List.pairwise_append]
    refine ⟨hpw, List.pairwise_singleton _ _, ?_⟩
    intro a ha b hb
    rw [List.mem_singleton.mp hb]
    exact Nat.ne_of_lt (hfresh a ha)
  · intro o1 ho1 o2 ho2 hin1 hin2 hvv
    rcases List.mem_append.mp ho1 with h1 | h1 <;>
      rcases List.mem_append.mp ho2 with h2 | h2
    · exact huniq o1 h1 o2 h2 hin1 hin2 hvv
    · rw [List.mem_singleton.mp h2] at hvv
      exact absurd hvv (hnot o1 h1 hin1)
    · rw [List.mem_singleton.mp h1] at hvv
      exact absurd hvv.symm (hnot o2 h2 hin2)
    · rw [List.mem_singleton.mp h1, List.mem_singleton.mp h2]
  · intro x hx hxin
    rcases List.mem_append.mp hx with h1 | h1
    · exact hstr x h1 hxin
    · rw [List.mem_singleton.mp h1]

theorem new_miss {s : InternState T} {v : T} (hf : findStore s.owners v = none) :
    ArcIntern.new v s =
      (ArcIntern.mk (Arc.mk s.nextId v),
       InternState.mk (s.nextId + 1) (s.owners ++ [ArcAlloc.mk s.nextId v 2 true])) := by
  simp [ArcIntern.new, hf]

theorem new_hit {s : InternState T} {v : T} {o : ArcAlloc T}
    (hs : Valid s) (hf : findStore s.owners v = some o) :
    ∃ l1 l2, s.owners = l1 ++ o :: l2
      ∧ (∀ x ∈ l1, x.id ≠ o.id ∧ ¬(x.inStore = true ∧ x.val = v))
      ∧ ArcIntern.new v s =
          (ArcIntern.mk (Arc.mk o.id o.val),
           InternState.mk s.nextId (l1 ++ { o with strong := o.strong + 1 } :: l2)) := by
  obtain ⟨hm, hin, hval⟩ := findStore_mem hf
  obtain ⟨l1, l2, hl, hno⟩ := findStore_decomp hf
  have hpw : (l1 ++ o :: l2).Pairwise (fun a b => a.id ≠ b.id) := hl ▸ hs.2.1
  rw [List.pairwise_append] at hpw
  have hfront : ∀ x ∈ l1, x.id ≠ o.id :=
    fun x hx => hpw.2.2 x hx o (List.mem_cons_self o l2)
  refine ⟨l1, l2, hl, fun x hx => ⟨hfront x hx, hno x hx⟩, ?_⟩
  simp only [ArcIntern.new, hf]
  rw [show bumpStrong s.owners o.id = l1 ++ { o with strong := o.strong + 1 } :: l2 by
    rw [hl]; exact bumpStrong_of_decomp hfront rfl]

theorem valid_empty : Valid (emptyState : InternState T) := by
  refine ⟨?_, ?_, ?_, ?_⟩ <;> simp [emptyState]

theorem valid_new {s : InternState T} (v : T) (hv : Valid s) :
    Valid (ArcIntern.new v s).2 := by
  cases hf : findStore s.owners v with
  | some o =>
      obtain ⟨l1, l2, hl, _, hnew⟩ := new_hit hv hf
      rw [hnew]
      have hin := (findStore_mem hf).2.1
      have hstr : 2 ≤ o.strong := hv.2.2.2 o (findStore_mem hf).1 hin
      have hstate : Valid (InternState.mk s.nextId (l1 ++ o :: l2)) := by
        rw [← hl]; exact hv
      exact @valid_middle_replace T _ s.nextId l1 l2 o
        { o with strong := o.strong + 1 } rfl rfl rfl
        (fun _ => by show 2 ≤ o.strong + 1; omega) hstate
  | none =>
      rw [new_miss hf]
      exact valid_append_fresh hv hf

theorem valid_drop {s : InternState T} {h : ArcIntern T}
    (hv : Valid s) (hl : LiveHandle s h) : Valid (ArcIntern.drop s h) := by
  obtain ⟨o, ho, hid, hin, hval⟩ := hl
  obtain ⟨l1, l2, hdec, _, _, howners⟩ := drop_eq_of_live hv ho hid hin hval
  have hstate : Valid (InternState.mk s.nextId (l1 ++ o :: l2)) := by
    rw [show (InternState.mk s.nextId (l1 ++ o :: l2)) = s by rw [← hdec]]
    exact hv
  have hnext : (ArcIntern.drop s h).nextId = s.nextId := rfl
  by_cases h2s : o.strong = 2
  · rw [if_pos h2s] at howners
    have : ArcIntern.drop s h = InternState.mk s.nextId (l1 ++ l2) := by
      rw [← hnext, ← howners]
    rw [this]
    exact valid_middle_remove hstate
  · rw [if_neg h2s] at howners
    have hthis : ArcIntern.drop s h =
        InternState.mk s.nextId (l1 ++ { o with strong := o.strong - 1 } :: l2) := by
      rw [← hnext, ← howners]
    rw [hthis]
    have hstr : 2 ≤ o.strong := hv.2.2.2 o ho hin
    exact @valid_middle_replace T _ s.nextId l1 l2 o
      { o with strong := o.strong - 1 } rfl rfl rfl
      (fun _ => by show 2 ≤ o.strong - 1; omega) hstate

theorem bumpStrong_shape (l : List (ArcAlloc T)) (i : Nat) :
    (bumpStrong l i).map shape = l.map shape := by
  induction l with
  | nil => rfl
  | cons x rest ih =>
      by_cases hx : x.id = i
      · simp [bumpStrong, if_pos hx, shape]
      · simp only [bumpStrong, if_neg hx, List.map_cons, ih]

theorem findStore_shape {l2 : List (ArcAlloc T)} :
    ∀ {l1 : List (ArcAlloc T)}, l1.map shape = l2.map shape → ∀ (v : T),
      (findStore l1 v).map shape = (findStore l2 v).map shape := by
  induction l2 with
  | nil =>
      intro l1 hsh v
      cases l1 with
      | nil => rfl
      | cons x rest => simp [shape] at hsh
  | cons y rest2 ih =>
      intro l1 hsh v
      cases l1 with
      | nil => simp [shape] at hsh
      | cons x rest =>
          simp only [List.map_cons, List.cons.injEq] at hsh
          have hxy : x.id = y.id ∧ x.val = y.val ∧ x.inStore = y.inStore := by
            have := hsh.1
            simp only [shape, Prod.mk.injEq] at this
            exact this
          by_cases hx : x.inStore = true ∧ x.val = v
          · have hy : y.inStore = true ∧ y.val = v :=
              ⟨hxy.2.2 ▸ hx.1, hxy.2.1 ▸ hx.2⟩
            simp only [findStore, if_pos hx, if_pos hy]
            show some (shape x) = some (shape y)
            rw [hsh.1]
          · have hy : ¬(y.inStore = true ∧ y.val = v) := by
              rintro ⟨hy1, hy2⟩
              exact hx ⟨hxy.2.2.symm ▸ hy1, hxy.2.1.symm ▸ hy2⟩
            simp only [findStore, if_pos, if_neg hx, if_neg hy]
            exact ih hsh.2 v

theorem new_val (v : T) (s : InternState T) :
    (ArcIntern.new v s).1.arc.val = v := by
  cases hf : findStore s.owners v with
  | some o => simp [ArcIntern.new, hf, (findStore_mem hf).2.2]
  | none => simp [ArcIntern.new, hf]

theorem internList_fresh {vs : List T} : ∀ (s : InternState T),
    vs.Nodup → (∀ v ∈ vs, findStore s.owners v = none) →
    internList s vs =
      (freshHandles s.nextId vs,
       InternState.mk (s.nextId + vs.length) (s.owners ++ freshOwners s.nextId vs)) := by
  induction vs with
  | nil =>
      intro s _ _
      simp [internList, freshHandles, freshOwners]
  | cons v vs ih =>
      intro s hnd hnone
      have hf : findStore s.owners v = none := hnone v (List.mem_cons_self v vs)
      have hstep : internList s (v :: vs) =
          ((ArcIntern.new v s).1 :: (internList (ArcIntern.new v s).2 vs).1,
           (internList (ArcIntern.new v s).2 vs).2) := rfl
      rw [hstep, new_miss hf]
      have hnd2 := (List.nodup_cons.mp hnd).2
      have hvnot := (List.nodup_cons.mp hnd).1
      have hnone2 : ∀ v' ∈ vs,
          findStore (s.owners ++ [ArcAlloc.mk s.nextId v 2 true]) v' = none := by
        intro v' hv'
        rw [findStore_append_of_none (fun x hx hc =>
          eq_none_findStore (hnone v' (List.mem_cons_of_mem _ hv')) x hx hc.1 hc.2)]
        have hvv : v ≠ v' := fun hEq => hvnot (hEq ▸ hv')
        simp [findStore, hvv]
      rw [ih _ hnd2 hnone2]
      have hn : s.nextId + 1 + vs.length = s.nextId + (vs.length + 1) := by omega
      have hap : (s.owners ++ [ArcAlloc.mk s.nextId v 2 true]) ++
            freshOwners (s.nextId + 1) vs =
          s.owners ++ ArcAlloc.mk s.nextId v 2 true :: freshOwners (s.nextId + 1) vs := by
        rw [List.append_assoc, List.singleton_append]
      rw [hap, hn]
      rfl

theorem dropList_fresh : ∀ (vs : List T) (n m : Nat),
    dropList (InternState.mk m (freshOwners n vs)) (freshHandles n vs) =
      InternState.mk m [] := by
  intro vs
  induction vs with
  | nil => intro n m; rfl
  | cons v vs ih =>
      intro n m
      have hstep : dropList (InternState.mk m (freshOwners n (v :: vs)))
            (freshHandles n (v :: vs)) =
          dropList (ArcIntern.drop (InternState.mk m (freshOwners n (v :: vs)))
            (ArcIntern.mk (Arc.mk n v))) (freshHandles (n + 1) vs) := rfl
      have hdrop : ArcIntern.drop (InternState.mk m (freshOwners n (v :: vs)))
          (ArcIntern.mk (Arc.mk n v)) = InternState.mk m (freshOwners (n + 1) vs) := by
        show InternState.mk m
            (decStrong (removeIfStrongTwo (freshOwners n (v :: vs)) v) n) = _
        simp [freshOwners, removeIfStrongTwo, decStrong]
      rw [hstep, hdrop, ih]

theorem internList_replicate (v : T) (i x : Nat) : ∀ (j m : Nat),
    internList (InternState.mk x [ArcAlloc.mk i v m true]) (List.replicate j v) =
      (List.replicate j (ArcIntern.mk (Arc.mk i v)),
       InternState.mk x [ArcAlloc.mk i v (m + j) true]) := by
  intro j
  induction j with
  | zero => intro m; simp [internList]
  | succ j ih =>
      intro m
      have hrep : List.replicate (j + 1) v = v :: List.replicate j v :=
        List.replicate_succ v j
      rw [hrep]
      have hstep : internList (InternState.mk x [ArcAlloc.mk i v m true])
            (v :: List.replicate j v) =
          ((ArcIntern.new v (InternState.mk x [ArcAlloc.mk i v m true])).1 ::
            (internList (ArcIntern.new v (InternState.mk x [ArcAlloc.mk i v m true])).2
              (List.replicate j v)).1,
           (internList (ArcIntern.new v (InternState.mk x [ArcAlloc.mk i v m true])).2
              (List.replicate j v)).2) := rfl
      rw [hstep]
      have hnew : ArcIntern.new v (InternState.mk x [ArcAlloc.mk i v m true]) =
          (ArcIntern.mk (Arc.mk i v), InternState.mk x [ArcAlloc.mk i v (m + 1) true]) := by
        simp [ArcIntern.new, findStore, bumpStrong]
      rw [hnew]
      simp only
      rw [ih (m + 1)]
      have harith : m + 1 + j = m + (j + 1) := by omega
      rw [harith, List.replicate_succ]

theorem filter_mid_length (l1 l2 : List (ArcAlloc T)) (o o' : ArcAlloc T)
    (hsame : o'.inStore = o.inStore) :
    (List.filter (fun x => x.inStore) (l1 ++ o' :: l2)).length
      = (List.filter (fun x => x.inStore) (l1 ++ o :: l2)).length := by
  simp only [List.filter_append, List.filter_cons, hsame, List.length_append]
  by_cases hoi : o.inStore <;> simp [hoi]

/-- Claim C1: when an ArcIntern handle is destroyed, the store entry for its
value is removed if and only if, immediately before this handle releases its
reference, the owner allocation's strong reference count is exactly 2 (the
store's reference plus the handle being destroyed); in every other case the
entry is left untouched and only this handle's reference is released (the
owner stays in the store with its strong count decreased by exactly one, and
no other allocation is affected). -/
theorem drop_removes_entry_iff_strong_two (s : InternState T) (h : ArcIntern T)
    (o : ArcAlloc T) (hs : Valid s) (ho : o ∈ s.owners) (hid : o.id = h.arc.id)
    (hin : o.inStore = true) (hv : o.val = h.arc.val) :
    (storeHas (ArcIntern.drop s h) h.arc.val = false ↔ o.strong = 2)
    ∧ (o.strong = 2 → ∃ l1 l2, s.owners = l1 ++ o :: l2
        ∧ (ArcIntern.drop s h).owners = l1 ++ l2)
    ∧ (o.strong ≠ 2 → ∃ l1 l2, s.owners = l1 ++ o :: l2
        ∧ (ArcIntern.drop s h).owners =
            l1 ++ { o with strong := o.strong - 1 } :: l2) := by
  obtain ⟨l1, l2, hl, h1, h2, howners⟩ := drop_eq_of_live hs ho hid hin hv
  by_cases h2s : o.strong = 2
  · rw [if_pos h2s] at howners
    have hnone : storeHas (ArcIntern.drop s h) h.arc.val = false := by
      unfold storeHas
      rw [howners, findStore_eq_none_of]
      · rfl
      · intro x hx hxin
        rcases List.mem_append.mp hx with hx1 | hx2
        · exact (h1 x hx1).2 hxin
        · exact (h2 x hx2).2 hxin
    exact ⟨⟨fun _ => h2s, fun _ => hnone⟩, fun _ => ⟨l1, l2, hl, howners⟩,
      fun hc => absurd h2s hc⟩
  · rw [if_neg h2s] at howners
    have hsome : storeHas (ArcIntern.drop s h) h.arc.val = true := by
      have hmem : ({ o with strong := o.strong - 1 } : ArcAlloc T)
          ∈ (ArcIntern.drop s h).owners := by
        rw [howners]
        exact List.mem_append_right _ (List.mem_cons_self _ _)
      obtain ⟨x, hx⟩ := findStore_isSome_of hmem
        (show ({ o with strong := o.strong - 1 } : ArcAlloc T).inStore = true from hin)
        (show ({ o with strong := o.strong - 1 } : ArcAlloc T).val = h.arc.val from hv)
      unfold storeHas
      rw [hx]
      rfl
    refine ⟨⟨fun hfalse => ?_, fun hc => absurd hc h2s⟩,
      fun hc => absurd hc h2s, fun _ => ⟨l1, l2, hl, howners⟩⟩
    rw [hsome] at hfalse
    exact absurd hfalse (by simp)

/-- Witness for C1: in the state holding one entry for the value 5 whose
allocation has strong count exactly 2, dropping the last client handle
removes the entry from the store. -/
theorem drop_removes_entry_iff_strong_two_witness :
    storeHas (ArcIntern.drop (InternState.mk 1 [ArcAlloc.mk 0 (5 : Nat) 2 true])
      (ArcIntern.mk (Arc.mk 0 5))) 5 = false :=
  (drop_removes_entry_iff_strong_two
    (InternState.mk 1 [ArcAlloc.mk 0 (5 : Nat) 2 true])
    (ArcIntern.mk (Arc.mk 0 5)) (ArcAlloc.mk 0 5 2 true)
    (by decide) (by decide) rfl rfl rfl).1.mpr rfl

/-- Counterexample to claim C2 as stated: the claim says the hash of a handle
is never exposed as equal to the hash of the wrapped value computed directly
on the value ("the two differ by design").  In the code, Hash for ArcIntern
feeds the hasher the wrapped value itself (src/lib.rs lines 199-200, despite
the stale doc comment above it), so the two hashes coincide: for the handle
wrapping 5 and the hasher fun n => 31 * n + 7, both sides equal 162. -/
theorem hash_handle_equals_value_hash_counterexample :
    ArcIntern.hashWith (fun n => 31 * n + 7) (ArcIntern.new (5 : Nat) emptyState).1
      = (fun n : Nat => 31 * n + 7) 5 := by decide

/-- Claim C2 amended: hashing an ArcIntern handle operates on the wrapped
value, not on owner identity — for every hasher f, every value v and every
state, the hash of the handle returned for v equals f v, the hash computed
directly on the value. -/
theorem hash_delegates_to_wrapped_value (f : T → Nat) (v : T) (s : InternState T) :
    ArcIntern.hashWith f (ArcIntern.new v s).1 = f v := by
  unfold ArcIntern.hashWith ArcIntern.asRef
  rw [new_val]

/-- Claim C3: uniqueness — for equal values v1 = v2, interning both in
sequence yields handles backed by the same allocation (identical canonical
owners), so the handles compare equal under the identity-based PartialEq;
no validity assumption on the starting state is needed. -/
theorem intern_equal_values_same_owner (v1 v2 : T) (s : InternState T)
    (hv : v1 = v2) :
    (ArcIntern.new v2 (ArcIntern.new v1 s).2).1.arc.id = (ArcIntern.new v1 s).1.arc.id
    ∧ ArcIntern.eq (ArcIntern.new v1 s).1
        (ArcIntern.new v2 (ArcIntern.new v1 s).2).1 = true := by
  subst hv
  suffices hsuff : (ArcIntern.new v1 (ArcIntern.new v1 s).2).1.arc.id
      = (ArcIntern.new v1 s).1.arc.id by
    refine ⟨hsuff, ?_⟩
    unfold ArcIntern.eq
    rw [hsuff]
    simp
  cases hf : findStore s.owners v1 with
  | some o =>
      have h1 : ArcIntern.new v1 s =
          (ArcIntern.mk (Arc.mk o.id o.val),
           { s with owners := bumpStrong s.owners o.id }) := by
        simp [ArcIntern.new, hf]
      rw [h1]
      have hsh := bumpStrong_shape s.owners o.id
      have hfs := findStore_shape hsh v1
      rw [hf] at hfs
      cases hf2 : findStore (bumpStrong s.owners o.id) v1 with
      | none => rw [hf2] at hfs; simp at hfs
      | some o2 =>
          rw [hf2] at hfs
          have hshape : shape o2 = shape o := by simpa using hfs
          have hid : o2.id = o.id := congrArg Prod.fst hshape
          simp [ArcIntern.new, hf2, hid]
  | none =>
      rw [new_miss hf]
      have hfront : ∀ x ∈ s.owners, ¬(x.inStore = true ∧ x.val = v1) :=
        fun x hx hc => eq_none_findStore hf x hx hc.1 hc.2
      have hf2 : findStore (s.owners ++ [ArcAlloc.mk s.nextId v1 2 true]) v1 =
          some (ArcAlloc.mk s.nextId v1 2 true) := by
        rw [findStore_append_of_none hfront]
        simp [findStore]
      simp [ArcIntern.new, hf2]

/-- Witness for C3: interning 4 twice from the empty state yields handles
that compare equal. -/
theorem intern_equal_values_same_owner_witness :
    ArcIntern.eq (ArcIntern.new (4 : Nat) emptyState).1
      (ArcIntern.new 4 (ArcIntern.new (4 : Nat) emptyState).2).1 = true :=
  (intern_equal_values_same_owner 4 4 emptyState rfl).2

/-- Claim C4: the store invariant — at most one entry per distinct value,
and never an owner whose only remaining strong reference is the store's own
(every stored allocation keeps at least the store's reference plus one
client reference) — holds in the empty state and is preserved by every
ArcIntern::new call and by every drop of a live handle; consequently, after
interning any list of pairwise-distinct values from the empty state and
dropping all returned handles, num_objects_interned returns 0. -/
theorem store_invariant_and_liveness :
    Valid (emptyState : InternState T)
    ∧ (∀ (s : InternState T) (v : T), Valid s → Valid (ArcIntern.new v s).2)
    ∧ (∀ (s : InternState T) (h : ArcIntern T), Valid s → LiveHandle s h →
        Valid (ArcIntern.drop s h))
    ∧ (∀ vs : List T, vs.Nodup →
        ArcIntern.numObjectsInterned
          (dropList (internList (emptyState : InternState T) vs).2
            (internList (emptyState : InternState T) vs).1) = 0) := by
  refine ⟨valid_empty, fun s v hv => valid_new v hv,
    fun s h hv hl => valid_drop hv hl, ?_⟩
  intro vs hnd
  rw [internList_fresh (emptyState : InternState T) hnd (fun v _ => rfl)]
  show ArcIntern.numObjectsInterned
      (dropList (InternState.mk (0 + vs.length) ([] ++ freshOwners 0 vs))
        (freshHandles 0 vs)) = 0
  rw [Nat.zero_add, List.nil_append, dropList_fresh]
  rfl

/-- Witness for C4: the state after interning 3 is valid, and interning the
distinct values 1 and 2 then dropping both handles leaves zero interned
objects. -/
theorem store_invariant_and_liveness_witness :
    Valid (ArcIntern.new (3 : Nat) emptyState).2
    ∧ ArcIntern.numObjectsInterned
        (dropList (internList (emptyState : InternState Nat) [1, 2]).2
          (internList (emptyState : InternState Nat) [1, 2]).1) = 0 :=
  ⟨store_invariant_and_liveness.2.1 emptyState 3 (by decide),
   store_invariant_and_liveness.2.2.2 [1, 2] (by decide)⟩

/-- Claim C5: refcount reports only client handles, excluding the store's
own reference: interning the same value k ≥ 1 times from the empty state
while retaining all handles yields refcount k on every returned handle
(strong count k + 1 minus the store's one), and dropping a live handle
decrements the count reported for its owner by exactly one. -/
theorem refcount_reports_client_handles :
    (∀ (v : T) (k : Nat), 1 ≤ k →
      ∀ h ∈ (internList (emptyState : InternState T) (List.replicate k v)).1,
        ArcIntern.refcount
          (internList (emptyState : InternState T) (List.replicate k v)).2 h = k)
    ∧ (∀ (s : InternState T) (h : ArcIntern T) (o : ArcAlloc T),
        Valid s → o ∈ s.owners → o.id = h.arc.id → o.inStore = true →
        o.val = h.arc.val →
        ArcIntern.refcount s h = o.strong - 1
        ∧ ArcIntern.refcount (ArcIntern.drop s h) h = ArcIntern.refcount s h - 1) := by
  constructor
  · intro v k hk h hmem
    obtain ⟨j, rfl⟩ : ∃ j, k = j + 1 := ⟨k - 1, by omega⟩
    have hall : internList (emptyState : InternState T) (List.replicate (j + 1) v) =
        (List.replicate (j + 1) (ArcIntern.mk (Arc.mk 0 v)),
         InternState.mk 1 [ArcAlloc.mk 0 v (2 + j) true]) := by
      rw [List.replicate_succ]
      have hstep : internList (emptyState : InternState T) (v :: List.replicate j v) =
          ((ArcIntern.new v emptyState).1 ::
            (internList (ArcIntern.new v emptyState).2 (List.replicate j v)).1,
           (internList (ArcIntern.new v emptyState).2 (List.replicate j v)).2) := rfl
      have hnew : ArcIntern.new v (emptyState : InternState T) =
          (ArcIntern.mk (Arc.mk 0 v), InternState.mk 1 [ArcAlloc.mk 0 v 2 true]) := rfl
      rw [hstep, hnew]
      simp only
      rw [internList_replicate v 0 1 j 2, List.replicate_succ]
    rw [hall] at hmem ⊢
    have hh : h = ArcIntern.mk (Arc.mk 0 v) := List.eq_of_mem_replicate hmem
    subst hh
    show strongCount (InternState.mk 1 [ArcAlloc.mk 0 v (2 + j) true]) 0 - 1 = j + 1
    simp [strongCount, findById]
    omega
  · intro s h o hv ho hid hin hval
    obtain ⟨l1, l2, hl, h1, h2, howners⟩ := drop_eq_of_live hv ho hid hin hval
    have hfront1 : ∀ x ∈ l1, x.id ≠ h.arc.id := by
      intro x hx
      rw [← hid]
      exact (h1 x hx).1
    have hsc : strongCount s h.arc.id = o.strong := by
      unfold strongCount
      rw [hl, findById_of_decomp hfront1 hid]
    have hrc : ArcIntern.refcount s h = o.strong - 1 := by
      show strongCount s h.arc.id - 1 = o.strong - 1
      rw [hsc]
    refine ⟨hrc, ?_⟩
    by_cases h2s : o.strong = 2
    · rw [if_pos h2s] at howners
      have hnone : findById (ArcIntern.drop s h).owners h.arc.id = none := by
        rw [howners]
        refine findById_eq_none_of ?_
        intro x hx
        rcases List.mem_append.mp hx with hx1 | hx2
        · rw [← hid]; exact (h1 x hx1).1
        · rw [← hid]; exact (h2 x hx2).1
      have hz : ArcIntern.refcount (ArcIntern.drop s h) h = 0 := by
        unfold ArcIntern.refcount strongCount
        rw [hnone]
        rfl
      rw [hz, hrc, h2s]
    · rw [if_neg h2s] at howners
      have hd : strongCount (ArcIntern.drop s h) h.arc.id = o.strong - 1 := by
        unfold strongCount
        rw [howners, findById_of_decomp hfront1
          (show ({ o with strong := o.strong - 1 } : ArcAlloc T).id = h.arc.id from hid)]
      show strongCount (ArcIntern.drop s h) h.arc.id - 1 = ArcIntern.refcount s h - 1
      rw [hd, hrc]

/-- Witness for C5: interning 7 twice from the empty state yields refcount 2
on the returned handle. -/
theorem refcount_reports_client_handles_witness :
    ArcIntern.refcount (internList (emptyState : InternState Nat) (List.replicate 2 7)).2
      (ArcIntern.mk (Arc.mk 0 7)) = 2 :=
  refcount_reports_client_handles.1 7 2 (by decide)
    (ArcIntern.mk (Arc.mk 0 7)) (by decide)

/-- Claim C6: discarded duplicate on hit — when ArcIntern::new is called
with a value equal to one already interned, the returned handle references
the pre-existing allocation, the allocator state is unchanged, the store
keeps exactly the same entries (the hit owner only gains one strong
reference, nothing is inserted or removed), and the number of interned
objects does not change: the caller-provided instance is never stored. -/
theorem new_hit_leaves_store_unchanged (v : T) (s : InternState T)
    (o : ArcAlloc T) (hs : Valid s) (hf : findStore s.owners v = some o) :
    (ArcIntern.new v s).1 = ArcIntern.mk (Arc.mk o.id o.val)
    ∧ (ArcIntern.new v s).2.nextId = s.nextId
    ∧ (∃ l1 l2, s.owners = l1 ++ o :: l2
        ∧ (ArcIntern.new v s).2.owners = l1 ++ { o with strong := o.strong + 1 } :: l2)
    ∧ ArcIntern.numObjectsInterned (ArcIntern.new v s).2
        = ArcIntern.numObjectsInterned s := by
  obtain ⟨l1, l2, hl, hfr, hnew⟩ := new_hit hs hf
  rw [hnew]
  refine ⟨rfl, rfl, ⟨l1, l2, hl, rfl⟩, ?_⟩
  show (List.filter (fun x => x.inStore)
      (l1 ++ { o with strong := o.strong + 1 } :: l2)).length
    = (List.filter (fun x => x.inStore) s.owners).length
  rw [hl]
  exact filter_mid_length l1 l2 o { o with strong := o.strong + 1 } rfl

/-- Witness for C6: re-interning 5 into a store already holding 5 leaves the
number of interned objects unchanged. -/
theorem new_hit_leaves_store_unchanged_witness :
    ArcIntern.numObjectsInterned
        (ArcIntern.new (5 : Nat) (InternState.mk 1 [ArcAlloc.mk 0 5 2 true])).2
      = ArcIntern.numObjectsInterned (InternState.mk 1 [ArcAlloc.mk 0 (5 : Nat) 2 true]) :=
  (new_hit_leaves_store_unchanged 5 (InternState.mk 1 [ArcAlloc.mk 0 5 2 true])
    (ArcAlloc.mk 0 5 2 true) (by decide) (by decide)).2.2.2

/-- Claim C7: ordering of handles compares the underlying values
structurally, never owner identity — cmp on two handles equals compare on
their wrapped values — and interning 4, 2, 5, 0, 1, 3 then sorting the
handle list with the handles' own ordering yields the values
0, 1, 2, 3, 4, 5. -/
theorem cmp_is_structural_on_values :
    (∀ (U : Type) [DecidableEq U] [Ord U] (a b : ArcIntern U),
      ArcIntern.cmp a b = compare a.arc.val b.arc.val)
    ∧ (sortHandles (internList (emptyState : InternState Nat) [4, 2, 5, 0, 1, 3]).1).map
        ArcIntern.asRef = [0, 1, 2, 3, 4, 5] := by
  constructor
  · intro U _ _ a b
    rfl
  · decide

/-- Claim C8: distinctness — interning two distinct values in sequence
yields handles backed by distinct allocations (distinct canonical owners),
so the handles compare unequal under the identity-based PartialEq. -/
theorem intern_distinct_values_distinct_owners (v1 v2 : T) (s : InternState T)
    (hs : Valid s) (hne : v1 ≠ v2) :
    (ArcIntern.new v1 s).1.arc.id ≠ (ArcIntern.new v2 (ArcIntern.new v1 s).2).1.arc.id
    ∧ ArcIntern.eq (ArcIntern.new v1 s).1
        (ArcIntern.new v2 (ArcIntern.new v1 s).2).1 = false := by
  obtain ⟨hfresh, hpw, huniq, hstr⟩ := hs
  suffices hsuff : (ArcIntern.new v1 s).1.arc.id
      ≠ (ArcIntern.new v2 (ArcIntern.new v1 s).2).1.arc.id by
    refine ⟨hsuff, ?_⟩
    unfold ArcIntern.eq
    exact beq_eq_false_iff_ne.mpr hsuff
  cases hf1 : findStore s.owners v1 with
  | some o1 =>
      have h1 : ArcIntern.new v1 s =
          (ArcIntern.mk (Arc.mk o1.id o1.val),
           { s with owners := bumpStrong s.owners o1.id }) := by
        simp [ArcIntern.new, hf1]
      rw [h1]
      have hsh := bumpStrong_shape s.owners o1.id
      cases hf2 : findStore (bumpStrong s.owners o1.id) v2 with
      | some o2 =>
          have hfs := findStore_shape hsh v2
          rw [hf2] at hfs
          cases hf2x : findStore s.owners v2 with
          | none => rw [hf2x] at hfs; simp at hfs
          | some o2x =>
              rw [hf2x] at hfs
              have hshape : shape o2 = shape o2x := by simpa using hfs
              have hid22 : o2.id = o2x.id := congrArg Prod.fst hshape
              have hid2 : (ArcIntern.new v2
                  { s with owners := bumpStrong s.owners o1.id }).1.arc.id = o2.id := by
                simp [ArcIntern.new, hf2]
              show o1.id ≠ (ArcIntern.new v2
                  { s with owners := bumpStrong s.owners o1.id }).1.arc.id
              rw [hid2]
              intro hEq
              have hsame : o1 = o2x :=
                pairwise_ne_mem_eq hpw (findStore_mem hf1).1 (findStore_mem hf2x).1
                  (by rw [hEq, hid22])
              refine hne ?_
              rw [← (findStore_mem hf1).2.2, ← (findStore_mem hf2x).2.2, hsame]
      | none =>
          have hid2 : (ArcIntern.new v2
              { s with owners := bumpStrong s.owners o1.id }).1.arc.id = s.nextId := by
            simp [ArcIntern.new, hf2]
          show o1.id ≠ (ArcIntern.new v2
              { s with owners := bumpStrong s.owners o1.id }).1.arc.id
          rw [hid2]
          exact Nat.ne_of_lt (hfresh o1 (findStore_mem hf1).1)
  | none =>
      rw [new_miss hf1]
      cases hf2 : findStore (s.owners ++ [ArcAlloc.mk s.nextId v1 2 true]) v2 with
      | some o2 =>
          have hm := findStore_mem hf2
          have ho2 : o2 ∈ s.owners := by
            rcases List.mem_append.mp hm.1 with hx | hx
            · exact hx
            · exfalso
              have ho2fresh : o2 = ArcAlloc.mk s.nextId v1 2 true :=
                List.mem_singleton.mp hx
              rw [ho2fresh] at hm
              exact hne hm.2.2
          have hid2 : (ArcIntern.new v2 (InternState.mk (s.nextId + 1)
              (s.owners ++ [ArcAlloc.mk s.nextId v1 2 true]))).1.arc.id = o2.id := by
            simp [ArcIntern.new, hf2]
          show s.nextId ≠ (ArcIntern.new v2 (InternState.mk (s.nextId + 1)
              (s.owners ++ [ArcAlloc.mk s.nextId v1 2 true]))).1.arc.id
          rw [hid2]
          exact (Nat.ne_of_lt (hfresh o2 ho2)).symm
      | none =>
          have hid2 : (ArcIntern.new v2 (InternState.mk (s.nextId + 1)
              (s.owners ++ [ArcAlloc.mk s.nextId v1 2 true]))).1.arc.id
              = s.nextId + 1 := by
            simp [ArcIntern.new, hf2]
          show s.nextId ≠ (ArcIntern.new v2 (InternState.mk (s.nextId + 1)
              (s.owners ++ [ArcAlloc.mk s.nextId v1 2 true]))).1.arc.id
          rw [hid2]
          omega

/-- Witness for C8: interning 1 then 2 from the empty state yields handles
that compare unequal. -/
theorem intern_distinct_values_distinct_owners_witness :
    ArcIntern.eq (ArcIntern.new (1 : Nat) emptyState).1
      (ArcIntern.new 2 (ArcIntern.new (1 : Nat) emptyState).2).1 = false :=
  (intern_distinct_values_distinct_owners 1 2 emptyState (by decide) (by decide)).2

/-- Claim C9: the intern entry point never fails — ArcIntern::new is a total
function; for every input value and every state it returns a handle paired
with the successor state (no error return path is observable to the caller),
and the returned handle wraps exactly the requested value. -/
theorem new_never_fails (v : T) (s : InternState T) :
    ∃ (h : ArcIntern T) (s2 : InternState T),
      ArcIntern.new v s = (h, s2) ∧ h.arc.val = v :=
  ⟨(ArcIntern.new v s).1, (ArcIntern.new v s).2, rfl, new_val v s⟩

/-- Claim C10: serializing a handle writes exactly the underlying value and
deserializing interns the value read, so for every live handle the round
trip yields a handle equal to the original (same allocation identity under
the identity-based PartialEq, and the same wrapped value). -/
theorem serde_roundtrip_preserves_handle (s : InternState T) (h : ArcIntern T)
    (hs : Valid s) (hl : LiveHandle s h) :
    ArcIntern.eq (ArcIntern.deserialize (ArcIntern.serialize h) s).1 h = true
    ∧ (ArcIntern.deserialize (ArcIntern.serialize h) s).1.arc.val = h.arc.val := by
  obtain ⟨o, ho, hid, hin, hval⟩ := hl
  obtain ⟨hfresh, hpw, huniq, hstr⟩ := hs
  obtain ⟨x, hx⟩ := findStore_isSome_of ho hin hval
  obtain ⟨hxm, hxin, hxv⟩ := findStore_mem hx
  have hxid : x.id = h.arc.id := by
    rw [← hid]
    exact huniq x hxm o ho hxin hin (by rw [hxv, hval])
  have hnew1 : (ArcIntern.new h.arc.val s).1 = ArcIntern.mk (Arc.mk x.id x.val) := by
    simp [ArcIntern.new, hx]
  constructor
  · show ((ArcIntern.new h.arc.val s).1.arc.id == h.arc.id) = true
    rw [hnew1]
    show (x.id == h.arc.id) = true
    rw [hxid]
    simp
  · exact new_val h.arc.val s

/-- Witness for C10: a live handle for the value 7 round-trips through
serialize then deserialize to a handle that compares equal to it. -/
theorem serde_roundtrip_preserves_handle_witness :
    ArcIntern.eq (ArcIntern.deserialize
        (ArcIntern.serialize (ArcIntern.mk (Arc.mk 0 (7 : Nat))))
        (InternState.mk 1 [ArcAlloc.mk 0 7 2 true])).1
      (ArcIntern.mk (Arc.mk 0 (7 : Nat))) = true :=
  (serde_roundtrip_preserves_handle (InternState.mk 1 [ArcAlloc.mk 0 7 2 true])
    (ArcIntern.mk (Arc.mk 0 7)) (by decide) (by decide)).1

end ArcInterner
